import Mathlib

/-!
Verification of the blocking PinList (files src/blocking/list.rs,
src/blocking/node.rs, src/blocking/dynlist.rs) over a shallow embedding.

Modelling decisions, spelled out once here:

The whole mutable state touched by the library is one list instance plus
the externally owned node storage around it.  We represent it as a record
`PinListW`:

* `mutex` is the raw mutex value wrapped by the `BlockingMutex`
  (list.rs line 14).  The scoped mutex collaborator (spec section 6)
  serialises operations; each operation below is therefore one atomic
  state transition.
* `chain` is the cordyceps intrusive `List<NodeHeader<T>>` guarded by the
  mutex (list.rs lines 42 to 44).  The cordyceps crate is the intrusive
  linkage collaborator of spec section 6; we model it at that interface:
  the chain is the sequence of linked node addresses in link order,
  `push_back` appends at the back, `remove` given an address unlinks that
  entry (and is a no-op when the address is not linked), and iteration
  walks the chain front to back.  Node addresses are `Nat`.
* `mem` is the node storage: it maps a node address to the payload held
  there, `none` when no live node occupies that address.  The list never
  owns node storage (spec section 3); `Node` values own it, and pinning
  fixes each attached node at its address.
-/

/-- World of one `PinList<R, T>` instance: the mutex value, the guarded
cordyceps chain of node header addresses, and the surrounding node
storage. -/
structure PinListW (μ α : Type) where
  mutex : μ
  chain : List Nat
  mem : Nat → Option α

/-- Translation of `PinList::new` (list.rs lines 100 to 109): builds the
`BlockingMutex` around `PinListInner { list: List::new() }`.  The
`ConstInit` bound on the mutex is modelled by `Inhabited`, and
`List::new()` is the empty chain. -/
def PinList.new (μ α : Type) [Inhabited μ] : PinListW μ α :=
  { mutex := default, chain := [], mem := fun _ => none }

/-- Translation of `PinList::new_manual` (list.rs lines 111 to 120):
identical to `new` except that the mutex value is supplied by the
caller. -/
def PinList.new_manual (μ α : Type) (r : μ) : PinListW μ α :=
  { mutex := r, chain := [], mem := fun _ => none }

/-- Translation of `Node::new_for` (node.rs lines 80 to 90): places a new
detached node holding payload `t` at address `id`.  The links are
`Links::new()` (unlinked), so the chain is untouched; no lock is taken. -/
def Node.new_for (w : PinListW μ α) (id : Nat) (t : α) : PinListW μ α :=
  { w with mem := fun j => if j = id then some t else w.mem j }

/-- Translation of `Node::attach` (node.rs lines 98 to 117): locks the
mutex and runs `inner.list.push_back(ptr_hdr)`, appending the header of
the node at `id` to the back of the chain.  The returned `NodeHandle` is
the pair of the list reference and the node address; in theorems a handle
is just the address `id`. -/
def Node.attach (w : PinListW μ α) (id : Nat) : PinListW μ α :=
  { w with chain := w.chain ++ [id] }

/-- Translation of `Drop for Node` (node.rs lines 145 to 154): locks the
mutex and runs `inner.list.remove(this)` on the header address, then the
node storage is reclaimed.  Per the cordyceps collaborator interface,
removal deletes the linked entry at that address and is a no-op when the
address is not linked, which `List.erase` renders exactly on a chain
without duplicates. -/
def Node.drop (w : PinListW μ α) (id : Nat) : PinListW μ α :=
  { w with chain := w.chain.erase id
         , mem := fun j => if j = id then none else w.mem j }

/-- Sequence of payload values yielded by exhausting `Iter` (list.rs
lines 142 to 148): each chain entry is a header address, and
`Iter::next` yields a reference to the `t` field stored there.  A chain
address with no storage yields nothing (unreachable in valid worlds,
where every linked address holds a node). -/
def PinList.iterSeq (w : PinListW μ α) : List α :=
  w.chain.filterMap w.mem

/-- Translation of `PinList::with_iter` (list.rs lines 52 to 61): locks
the mutex, builds an `Iter` over the current chain, passes it to `f` and
returns the result of `f`.  `Iter::next` only reads the chain, so the
state after the call — returned as the second component — is unchanged. -/
def PinList.with_iter (w : PinListW μ α) (f : List α → U) : U × PinListW μ α :=
  (f (PinList.iterSeq w), w)

/-- Translation of `NodeHandle::with_lock` (node.rs lines 160 to 174):
locks the mutex, rebuilds `&T` from the stored node address and invokes
`f` on it once, returning the result of `f`.  The first component is the
returned value (`none` only when no node occupies the address, a state a
live handle excludes); the second component instruments the single call
site `f(this)`: it lists the arguments `f` is invoked on. -/
def NodeHandle.with_lock (w : PinListW μ α) (id : Nat) (f : α → U) :
    Option U × List α :=
  match w.mem id with
  | none => (none, [])
  | some t => (some (f t), [t])

/-- Translation of `NodeHandle::with_lock_mut` (node.rs lines 211 to
225): locks the mutex, rebuilds `&mut T` from the stored node address and
invokes `f` on it, returning the result of `f`.  The closure
`g : α → α × U` captures the effect of `FnOnce(&mut T) -> U`: the payload
it leaves behind and the value it returns. -/
def NodeHandle.with_lock_mut (w : PinListW μ α) (id : Nat) (g : α → α × U) :
    PinListW μ α × Option U :=
  match w.mem id with
  | none => (w, none)
  | some t =>
    ({ w with mem := fun j => if j = id then some (g t).1 else w.mem j },
     some (g t).2)

/-- Translation of `NodeHandle::with_lock_pin_mut` (node.rs lines 182 to
196): same shape as `with_lock_mut`, yielding `Pin<&mut T>` instead of
`&mut T`; the pinned mutable view can still rewrite the payload in
place. -/
def NodeHandle.with_lock_pin_mut (w : PinListW μ α) (id : Nat) (g : α → α × U) :
    PinListW μ α × Option U :=
  match w.mem id with
  | none => (w, none)
  | some t =>
    ({ w with mem := fun j => if j = id then some (g t).1 else w.mem j },
     some (g t).2)

/-- Translation of `NodeHandle::list` (node.rs lines 199 to 201): returns
the stored back-reference to the owning list without locking; the list
value is the world itself. -/
def NodeHandle.list (w : PinListW μ α) (_id : Nat) : PinListW μ α := w

/-- Translation of dropping a `NodeHandle` (node.rs lines 61 to 65):
`NodeHandle` has no `Drop` implementation — its fields are a shared
reference, a `NonNull` and a `PhantomData`, none of which has drop glue —
so dropping a handle runs no code against the list. -/
def NodeHandle.dropHandle (w : PinListW μ α) (_id : Nat) : PinListW μ α := w

/-- Runs `Node::new_for` followed by `Node::attach` for each
address/payload pair in order, starting from `w`. -/
def attachAll (w : PinListW μ α) (ps : List (Nat × α)) : PinListW μ α :=
  ps.foldl (fun w p => Node.attach (Node.new_for w p.1 p.2) p.1) w

/-!
Dyn variant (dynlist.rs).  Claim C3 concerns nodes built from a concrete
array payload `[T; N]` attached to a slice-typed list `DynPinList<R, [T]>`
with the slice coercion, so the dyn world is modelled at exactly that
instantiation: a node payload is an array (a size together with its
elements), and the view type `D` is the slice of elements.
-/

/-- Concrete array payload `[β; size]` of one dyn node: the element count
and the elements themselves. -/
structure DynArr (β : Type) where
  size : Nat
  data : Fin size → β

/-- Stored `cast` of a header built by `DynNode::new_for_with_cast`
(dynlist.rs lines 225 to 240) with the slice coercion `|p| p` (an unsize
coercion from `NonNull<[T; N]>` to `NonNull<[T]>`): from the node address
it reaches the payload field and builds the fat slice pointer whose
element count is the array length and whose elements are the array
elements.  The resulting view is the list of elements. -/
def sliceCast (s : DynArr β) : List β :=
  List.ofFn s.data

/-- World of one `DynPinList<R, [β]>` instance, mirroring `PinListW`:
mutex value, guarded chain of header addresses, and node storage holding
the concrete array payloads. -/
structure DynPinListW (μ β : Type) where
  mutex : μ
  chain : List Nat
  mem : Nat → Option (DynArr β)

/-- Translation of `DynPinList::new` (dynlist.rs lines 96 to 105). -/
def DynPinList.new (μ β : Type) [Inhabited μ] : DynPinListW μ β :=
  { mutex := default, chain := [], mem := fun _ => none }

/-- Translation of `DynPinList::new_manual` (dynlist.rs lines 107 to
116). -/
def DynPinList.new_manual (μ β : Type) (r : μ) : DynPinListW μ β :=
  { mutex := r, chain := [], mem := fun _ => none }

/-- Translation of `DynNode::new_for_with_cast` (dynlist.rs lines 225 to
240) at the slice instantiation: places a new detached node holding the
array payload `s` at address `id`; its header stores the `cast` closure
over the supplied coercion (here the slice coercion, `sliceCast`).  The
chain is untouched and no lock is taken. -/
def DynNode.new_for_with_cast (w : DynPinListW μ β) (id : Nat) (s : DynArr β) :
    DynPinListW μ β :=
  { w with mem := fun j => if j = id then some s else w.mem j }

/-- Translation of `DynNode::new_for` (dynlist.rs lines 203 to 221,
nightly): identical to `new_for_with_cast` with the coercion derived
automatically from `T: Unsize<D>`; for an array payload in a slice-typed
list that derived coercion is again the slice coercion. -/
def DynNode.new_for (w : DynPinListW μ β) (id : Nat) (s : DynArr β) :
    DynPinListW μ β :=
  DynNode.new_for_with_cast w id s

/-- Translation of `DynNode::attach` (dynlist.rs lines 248 to 268): locks
the mutex and runs `inner.push_back(ptr_hdr)`, appending the header of
the node at `id` to the back of the chain. -/
def DynNode.attach (w : DynPinListW μ β) (id : Nat) : DynPinListW μ β :=
  { w with chain := w.chain ++ [id] }

/-- Translation of `Drop for DynNode` (dynlist.rs lines 296 to 305):
locks the mutex, runs `inner.remove(this)` on the header address, then
the node storage is reclaimed; removal is a no-op when the address is not
linked, as for the typed variant. -/
def DynNode.drop (w : DynPinListW μ β) (id : Nat) : DynPinListW μ β :=
  { w with chain := w.chain.erase id
         , mem := fun j => if j = id then none else w.mem j }

/-- Sequence of slice views yielded by exhausting the dyn `Iter`
(dynlist.rs lines 138 to 148): for each chain entry the stored `cast` of
its header is applied to the node address, recovering the slice view of
the payload stored there. -/
def DynPinList.iterSeq (w : DynPinListW μ β) : List (List β) :=
  w.chain.filterMap (fun j => (w.mem j).map sliceCast)

/-- Translation of `DynNodeHandle::with_lock_mut` (dynlist.rs lines 359
to 371): locks the mutex, rebuilds `&mut T` — the concrete array type —
from the stored node address and invokes the closure on it.  The closure
is modelled by its write effect `g`, polymorphic in the element count the
way the Rust closure is fixed to the concrete array type of the node. -/
def DynNodeHandle.with_lock_mut (w : DynPinListW μ β) (id : Nat)
    (g : (n : Nat) → (Fin n → β) → (Fin n → β)) : DynPinListW μ β :=
  match w.mem id with
  | none => w
  | some s =>
    { w with mem := fun j =>
        if j = id then some ⟨s.size, g s.size s.data⟩ else w.mem j }

/-- Translation of dropping a `DynNodeHandle` (dynlist.rs lines 189 to
193): as for `NodeHandle`, there is no `Drop` implementation and no field
with drop glue, so dropping a handle runs no code against the list. -/
def DynNodeHandle.dropHandle (w : DynPinListW μ β) (_id : Nat) : DynPinListW μ β :=
  w

/-- Write effect of the closure `|inner| inner[i] = v` used through
`with_lock_mut` (as in dynlist.rs test2, line 417): sets element `i` of
the array, leaving other elements in place. -/
def setElem (i : Nat) (v : β) : (n : Nat) → (Fin n → β) → (Fin n → β) :=
  fun _ data j => if j.val = i then v else data j

/-- Position of the entry of node `id` in the chain: the number of chain
entries strictly before the first occurrence of `id`. -/
def chainIdx (id : Nat) : List Nat → Nat
  | [] => 0
  | a :: t => if a = id then 0 else chainIdx id t + 1

/-!
Serialised operation sequences.  The scoped mutex collaborator makes
every attach, detach and iteration an atomic critical section, so any
completed execution — concurrent contexts included — corresponds to some
sequence of these operations; the machinery below represents such
sequences.
-/

/-- One mutex-guarded list operation: an attach of a fresh node (the
`new_for` and `attach` pair) or a detach (destruction of an attached
node). -/
inductive ListOp (α : Type) where
  | attach : Nat → α → ListOp α
  | detach : Nat → ListOp α

/-- Effect of one operation on the world. -/
def ListOp.step (w : PinListW μ α) : ListOp α → PinListW μ α
  | .attach id t => Node.attach (Node.new_for w id t) id
  | .detach id => Node.drop w id

/-- Runs a sequence of operations in order. -/
def runOps (w : PinListW μ α) (ops : List (ListOp α)) : PinListW μ α :=
  ops.foldl ListOp.step w

/-- Well-formedness of a sequence against a starting world: every attach
uses an address not currently linked (live nodes have distinct
addresses), and every detach targets a currently linked node. -/
def wfOps (w : PinListW μ α) : List (ListOp α) → Bool
  | [] => true
  | op :: ops =>
    (match op with
     | .attach id _ => !w.chain.contains id
     | .detach id => w.chain.contains id) && wfOps (ListOp.step w op) ops

/-- Number of attach operations in a sequence. -/
def countAttach : List (ListOp α) → Nat
  | [] => 0
  | .attach _ _ :: ops => countAttach ops + 1
  | .detach _ :: ops => countAttach ops

/-- Number of detach operations in a sequence. -/
def countDetach : List (ListOp α) → Nat
  | [] => 0
  | .attach _ _ :: ops => countDetach ops
  | .detach _ :: ops => countDetach ops + 1

-- ---- helper lemmas about attachAll ----

theorem attachAll_chain (w : PinListW μ α) (ps : List (Nat × α)) :
    (attachAll w ps).chain = w.chain ++ ps.map Prod.fst := by
  induction ps generalizing w with
  | nil => simp [attachAll]
  | cons p t ih =>
    show (attachAll (Node.attach (Node.new_for w p.1 p.2) p.1) t).chain = _
    rw [ih]
    simp [Node.attach, Node.new_for]

theorem attachAll_mem_of_not_mem (w : PinListW μ α) (ps : List (Nat × α))
    (j : Nat) (hj : j ∉ ps.map Prod.fst) :
    (attachAll w ps).mem j = w.mem j := by
  induction ps generalizing w with
  | nil => rfl
  | cons p t ih =>
    simp only [List.map_cons, List.mem_cons, not_or] at hj
    show (attachAll (Node.attach (Node.new_for w p.1 p.2) p.1) t).mem j = _
    rw [ih _ hj.2]
    simp [Node.attach, Node.new_for, hj.1]

theorem attachAll_mem_of_mem (w : PinListW μ α) (ps : List (Nat × α))
    (hnd : (ps.map Prod.fst).Nodup) (p : Nat × α) (hp : p ∈ ps) :
    (attachAll w ps).mem p.1 = some p.2 := by
  induction ps generalizing w with
  | nil => cases hp
  | cons q t ih =>
    simp only [List.map_cons, List.nodup_cons] at hnd
    rcases List.mem_cons.mp hp with h | h
    · subst h
      show (attachAll (Node.attach (Node.new_for w p.1 p.2) p.1) t).mem p.1 = _
      rw [attachAll_mem_of_not_mem _ _ _ hnd.1]
      simp [Node.attach, Node.new_for]
    · exact ih _ hnd.2 h

theorem filterMap_of_mem_eq (ps : List (Nat × α)) (m : Nat → Option α)
    (h : ∀ p ∈ ps, m p.1 = some p.2) :
    (ps.map Prod.fst).filterMap m = ps.map Prod.snd := by
  induction ps with
  | nil => rfl
  | cons p t ih =>
    simp only [List.map_cons, List.filterMap_cons, h p (by simp)]
    rw [ih fun q hq => h q (by simp [hq])]

/-- C1.  Order fidelity with tail insertion: for every sequence of attach
operations (with pairwise distinct node addresses) performed on an
initially empty `PinList`, a full iteration immediately afterward yields
the payload values in attach order, because `Node::attach` appends the
header of the node to the back of the chain. -/
theorem order_fidelity (μ α : Type) [Inhabited μ] (ps : List (Nat × α))
    (hnd : (ps.map Prod.fst).Nodup) :
    PinList.iterSeq (attachAll (PinList.new μ α) ps) = ps.map Prod.snd := by
  unfold PinList.iterSeq
  rw [attachAll_chain]
  show (List.nil ++ ps.map Prod.fst).filterMap _ = _
  rw [List.nil_append]
  exact filterMap_of_mem_eq ps _ fun p hp => attachAll_mem_of_mem _ ps hnd p hp

/-- Witness for C1 at the example of the spec: attaching 123 then 456 to
an empty list and iterating yields [123, 456]. -/
theorem order_fidelity_witness :
    (([(0, 123), (1, 456)] : List (Nat × Nat)).map Prod.fst).Nodup ∧
    PinList.iterSeq (attachAll (PinList.new Unit Nat) [(0, 123), (1, 456)])
      = [123, 456] :=
  ⟨by decide, order_fidelity Unit Nat [(0, 123), (1, 456)] (by decide)⟩

/-- C2.  Detach correctness: destroying one attached node removes exactly
the entry of that node from the chain and leaves the relative order of
all remaining entries unchanged, as observed by a subsequent full
iteration. -/
theorem detach_correctness (μ α : Type) [Inhabited μ] (ps : List (Nat × α))
    (hnd : (ps.map Prod.fst).Nodup) (b : Nat) (_hb : b ∈ ps.map Prod.fst) :
    PinList.iterSeq (Node.drop (attachAll (PinList.new μ α) ps) b)
      = (ps.filter (fun p => p.1 != b)).map Prod.snd := by
  have hch : (attachAll (PinList.new μ α) ps).chain = ps.map Prod.fst := by
    rw [attachAll_chain]
    rfl
  show ((attachAll (PinList.new μ α) ps).chain.erase b).filterMap
      (fun j => if j = b then none else (attachAll (PinList.new μ α) ps).mem j) = _
  rw [hch, List.Nodup.erase_eq_filter hnd b, List.filter_map]
  have hc : ((fun x => x != b) ∘ Prod.fst) = (fun p : Nat × α => p.1 != b) := rfl
  rw [hc]
  apply filterMap_of_mem_eq
  intro p hp
  rcases List.mem_filter.mp hp with ⟨hps, hpb⟩
  have hne : p.1 ≠ b := by simpa using hpb
  rw [if_neg hne]
  exact attachAll_mem_of_mem _ ps hnd p hps

/-- Witness for C2 at the example of the spec: attach 123, 456, 789,
destroy the middle node, and iteration yields [123, 789]. -/
theorem detach_correctness_witness :
    (([(0, 123), (1, 456), (2, 789)] : List (Nat × Nat)).map Prod.fst).Nodup ∧
    (1 : Nat) ∈ ([(0, 123), (1, 456), (2, 789)] : List (Nat × Nat)).map Prod.fst ∧
    PinList.iterSeq
        (Node.drop (attachAll (PinList.new Unit Nat) [(0, 123), (1, 456), (2, 789)]) 1)
      = [123, 789] :=
  ⟨by decide, by decide,
   detach_correctness Unit Nat [(0, 123), (1, 456), (2, 789)] (by decide) 1 (by decide)⟩

theorem filterMap_ext_on {γ δ : Type} (l : List γ) (f g : γ → Option δ)
    (h : ∀ a ∈ l, f a = g a) : l.filterMap f = l.filterMap g := by
  induction l with
  | nil => rfl
  | cons a t ih =>
    rw [List.filterMap_cons, List.filterMap_cons, h a (by simp),
      ih fun b hb => h b (by simp [hb])]

theorem filterMap_chainIdx {γ : Type} (l : List Nat) (m : Nat → Option γ)
    (id : Nat) (v : γ) (hid : id ∈ l) (hv : m id = some v)
    (hall : ∀ j ∈ l, (m j).isSome) :
    (l.filterMap m)[chainIdx id l]? = some v := by
  induction l with
  | nil => cases hid
  | cons a t ih =>
    by_cases h : a = id
    · subst h
      simp [chainIdx, List.filterMap_cons, hv]
    · obtain ⟨u, hu⟩ := Option.isSome_iff_exists.mp (hall a (by simp))
      have hid' : id ∈ t := by
        rcases List.mem_cons.mp hid with h1 | h1
        · exact absurd h1.symm h
        · exact h1
      have hrec := ih hid' fun j hj => hall j (by simp [hj])
      simp [chainIdx, h, List.filterMap_cons, hu, hrec]

/-- C3.  Type-erasure correctness (dyn variant): for a node holding a
concrete array payload `s` attached to a slice-typed list, iterating the
list yields for that node a slice view whose length and element values
equal the original array, and an element mutated through the locked
mutable access of the handle is subsequently observed with its new value
through that slice view. -/
theorem dyn_type_erasure (μ β : Type) (w : DynPinListW μ β) (id : Nat)
    (s : DynArr β) (i : Nat) (v : β)
    (hmem : w.mem id = some s) (hch : id ∈ w.chain)
    (hall : ∀ j ∈ w.chain, (w.mem j).isSome) (hi : i < s.size) :
    (DynPinList.iterSeq w)[chainIdx id w.chain]? = some (sliceCast s) ∧
    (sliceCast s).length = s.size ∧
    (∀ j : Fin s.size, (sliceCast s)[j.val]? = some (s.data j)) ∧
    (DynPinList.iterSeq
        (DynNodeHandle.with_lock_mut w id (setElem i v)))[chainIdx id w.chain]?
      = some (sliceCast ⟨s.size, setElem i v s.size s.data⟩) ∧
    (sliceCast ⟨s.size, setElem i v s.size s.data⟩)[i]? = some v := by
  refine ⟨?_, ?_, ?_, ?_, ?_⟩
  · exact filterMap_chainIdx w.chain _ id _ hch (by rw [hmem]; rfl)
      fun j hj => by
        obtain ⟨u, hu⟩ := Option.isSome_iff_exists.mp (hall j hj)
        simp [hu]
  · exact List.length_ofFn s.data
  · intro j
    show (List.ofFn s.data)[j.val]? = some (s.data j)
    rw [List.getElem?_ofFn]
    simp [List.ofFnNthVal, j.isLt]
  · have hw : DynNodeHandle.with_lock_mut w id (setElem i v)
        = { w with mem := fun j =>
            if j = id then some ⟨s.size, setElem i v s.size s.data⟩
            else w.mem j } := by
      unfold DynNodeHandle.with_lock_mut
      rw [hmem]
    rw [hw]
    exact filterMap_chainIdx w.chain _ id _ hch (by simp)
      fun j hj => by
        by_cases hji : j = id
        · simp [hji]
        · obtain ⟨u, hu⟩ := Option.isSome_iff_exists.mp (hall j hj)
          simp [hji, hu]
  · show (List.ofFn (setElem i v s.size s.data))[i]? = some v
    rw [List.getElem?_ofFn]
    simp [List.ofFnNthVal, hi, setElem]

/-- Witness for C3 at the example of the spec: payload [20, 50, 70, 3]
observed as a four element slice with identical contents; element 2
mutated to 7 through the handle is observed through the slice view. -/
theorem dyn_type_erasure_witness :
    ((DynNode.attach (DynNode.new_for_with_cast (DynPinList.new Unit Nat) 0
        ⟨4, ![20, 50, 70, 3]⟩) 0).mem 0 = some ⟨4, ![20, 50, 70, 3]⟩) ∧
    (0 ∈ (DynNode.attach (DynNode.new_for_with_cast (DynPinList.new Unit Nat) 0
        ⟨4, ![20, 50, 70, 3]⟩) 0).chain) ∧
    (∀ j ∈ (DynNode.attach (DynNode.new_for_with_cast (DynPinList.new Unit Nat) 0
        ⟨4, ![20, 50, 70, 3]⟩) 0).chain,
      ((DynNode.attach (DynNode.new_for_with_cast (DynPinList.new Unit Nat) 0
        ⟨4, ![20, 50, 70, 3]⟩) 0).mem j).isSome) ∧
    (2 < 4) ∧
    ((DynPinList.iterSeq (DynNode.attach (DynNode.new_for_with_cast
          (DynPinList.new Unit Nat) 0 ⟨4, ![20, 50, 70, 3]⟩) 0))[
        chainIdx 0 (DynNode.attach (DynNode.new_for_with_cast
          (DynPinList.new Unit Nat) 0 ⟨4, ![20, 50, 70, 3]⟩) 0).chain]?
      = some (sliceCast ⟨4, ![20, 50, 70, 3]⟩) ∧
    (sliceCast (⟨4, ![20, 50, 70, 3]⟩ : DynArr Nat)).length = 4 ∧
    (∀ j : Fin 4, (sliceCast (⟨4, ![20, 50, 70, 3]⟩ : DynArr Nat))[j.val]?
      = some (![20, 50, 70, 3] j)) ∧
    (DynPinList.iterSeq (DynNodeHandle.with_lock_mut
        (DynNode.attach (DynNode.new_for_with_cast
          (DynPinList.new Unit Nat) 0 ⟨4, ![20, 50, 70, 3]⟩) 0) 0
        (setElem 2 7)))[
        chainIdx 0 (DynNode.attach (DynNode.new_for_with_cast
          (DynPinList.new Unit Nat) 0 ⟨4, ![20, 50, 70, 3]⟩) 0).chain]?
      = some (sliceCast ⟨4, setElem 2 7 4 ![20, 50, 70, 3]⟩) ∧
    (sliceCast (⟨4, setElem 2 7 4 ![20, 50, 70, 3]⟩ : DynArr Nat))[(2 : Nat)]?
      = some 7) :=
  ⟨rfl, by decide, by decide, by decide,
   dyn_type_erasure Unit Nat
     (DynNode.attach (DynNode.new_for_with_cast (DynPinList.new Unit Nat) 0
        ⟨4, ![20, 50, 70, 3]⟩) 0) 0 ⟨4, ![20, 50, 70, 3]⟩ 2 7
     rfl (by decide) (by decide) (by decide)⟩

/-- C4.  Mutation visibility: for an attached node, the payload value
written through the locked mutable access of the handle is the value a
subsequent full iteration yields for that node. -/
theorem mutation_visibility (μ α U : Type) (w : PinListW μ α) (id : Nat)
    (t : α) (g : α → α × U) (hmem : w.mem id = some t) (hch : id ∈ w.chain)
    (hall : ∀ j ∈ w.chain, (w.mem j).isSome) :
    (PinList.iterSeq (NodeHandle.with_lock_mut w id g).1)[chainIdx id w.chain]?
      = some (g t).1 := by
  have hw : (NodeHandle.with_lock_mut w id g).1
      = { w with mem := fun j => if j = id then some (g t).1 else w.mem j } := by
    unfold NodeHandle.with_lock_mut
    rw [hmem]
  rw [hw]
  exact filterMap_chainIdx w.chain _ id _ hch (by simp)
    fun j hj => by
      by_cases hji : j = id
      · simp [hji]
      · obtain ⟨u, hu⟩ := Option.isSome_iff_exists.mp (hall j hj)
        simp [hji, hu]

/-- Witness for C4 at the example of the spec: attach(5), mutate to 7 via
locked mutable access, iteration yields 7 for that node. -/
theorem mutation_visibility_witness :
    ((Node.attach (Node.new_for (PinList.new Unit Nat) 0 5) 0).mem 0 = some 5) ∧
    (0 ∈ (Node.attach (Node.new_for (PinList.new Unit Nat) 0 5) 0).chain) ∧
    (∀ j ∈ (Node.attach (Node.new_for (PinList.new Unit Nat) 0 5) 0).chain,
      ((Node.attach (Node.new_for (PinList.new Unit Nat) 0 5) 0).mem j).isSome) ∧
    (PinList.iterSeq (NodeHandle.with_lock_mut
        (Node.attach (Node.new_for (PinList.new Unit Nat) 0 5) 0) 0
        (fun _ => (7, ()))).1)[
      chainIdx 0 (Node.attach (Node.new_for (PinList.new Unit Nat) 0 5) 0).chain]?
      = some 7 :=
  ⟨rfl, by decide, by decide,
   mutation_visibility Unit Nat Unit
     (Node.attach (Node.new_for (PinList.new Unit Nat) 0 5) 0) 0 5
     (fun _ => (7, ())) rfl (by decide) (by decide)⟩

/-- C5.  Handle operation totality: for a handle over a live node,
`with_lock f` invokes `f` exactly once, on the payload of that node, and
returns the result of `f`; `with_lock_mut`, `with_lock_pin_mut` and
`list` likewise return values, never an error. -/
theorem handle_totality (μ α U V X : Type) (w : PinListW μ α) (id : Nat)
    (t : α) (f : α → U) (g : α → α × V) (gp : α → α × X)
    (hmem : w.mem id = some t) :
    NodeHandle.with_lock w id f = (some (f t), [t]) ∧
    (NodeHandle.with_lock_mut w id g).2 = some (g t).2 ∧
    (NodeHandle.with_lock_pin_mut w id gp).2 = some (gp t).2 ∧
    NodeHandle.list w id = w := by
  refine ⟨?_, ?_, ?_, rfl⟩ <;>
    simp [NodeHandle.with_lock, NodeHandle.with_lock_mut,
      NodeHandle.with_lock_pin_mut, hmem]

/-- Witness for C5: a node with payload 5, a reading closure, a mutating
closure and a pinned mutating closure all return their values. -/
theorem handle_totality_witness :
    ((Node.attach (Node.new_for (PinList.new Unit Nat) 0 5) 0).mem 0 = some 5) ∧
    NodeHandle.with_lock
        (Node.attach (Node.new_for (PinList.new Unit Nat) 0 5) 0) 0
        (fun t => t + 1) = (some 6, [5]) ∧
    (NodeHandle.with_lock_mut
        (Node.attach (Node.new_for (PinList.new Unit Nat) 0 5) 0) 0
        (fun t => (t * 2, t))).2 = some 5 ∧
    (NodeHandle.with_lock_pin_mut
        (Node.attach (Node.new_for (PinList.new Unit Nat) 0 5) 0) 0
        (fun t => (t + 3, ()))).2 = some () ∧
    NodeHandle.list (Node.attach (Node.new_for (PinList.new Unit Nat) 0 5) 0) 0
      = Node.attach (Node.new_for (PinList.new Unit Nat) 0 5) 0 :=
  ⟨rfl,
   (handle_totality Unit Nat Nat Nat Unit
     (Node.attach (Node.new_for (PinList.new Unit Nat) 0 5) 0) 0 5
     (fun t => t + 1) (fun t => (t * 2, t)) (fun t => (t + 3, ())) rfl).1,
   (handle_totality Unit Nat Nat Nat Unit
     (Node.attach (Node.new_for (PinList.new Unit Nat) 0 5) 0) 0 5
     (fun t => t + 1) (fun t => (t * 2, t)) (fun t => (t + 3, ())) rfl).2.1,
   (handle_totality Unit Nat Nat Nat Unit
     (Node.attach (Node.new_for (PinList.new Unit Nat) 0 5) 0) 0 5
     (fun t => t + 1) (fun t => (t * 2, t)) (fun t => (t + 3, ())) rfl).2.2.1,
   (handle_totality Unit Nat Nat Nat Unit
     (Node.attach (Node.new_for (PinList.new Unit Nat) 0 5) 0) 0 5
     (fun t => t + 1) (fun t => (t * 2, t)) (fun t => (t + 3, ())) rfl).2.2.2⟩

/-- C6.  Idempotent iteration: `with_iter` leaves the list unchanged, so
two consecutive full iterations over an unmodified list yield identical
sequences of payload values. -/
theorem idempotent_iteration (μ α : Type) (w : PinListW μ α) :
    (PinList.with_iter w (fun xs => xs)).2 = w ∧
    (PinList.with_iter (PinList.with_iter w (fun xs => xs)).2 (fun xs => xs)).1
      = (PinList.with_iter w (fun xs => xs)).1 :=
  ⟨rfl, rfl⟩

/-- C7.  Empty construction: both `new` (constant-context construction
with a default-constructible mutex) and `new_manual` (caller-supplied
mutex instance) produce an empty list: a full iteration over a freshly
constructed list yields no items. -/
theorem empty_construction (μ α : Type) [Inhabited μ] (r : μ) :
    PinList.iterSeq (PinList.new μ α) = [] ∧
    PinList.iterSeq (PinList.new_manual μ α r) = [] :=
  ⟨rfl, rfl⟩

/-- C8.  Handle drop is a no-op on the chain: dropping a `NodeHandle` or
a `DynNodeHandle` does not detach the node; the chain membership and
order of the list, and hence any subsequent iteration, are unchanged. -/
theorem handle_drop_noop (μ α β : Type) (w : PinListW μ α)
    (dw : DynPinListW μ β) (id : Nat) :
    (NodeHandle.dropHandle w id).chain = w.chain ∧
    PinList.iterSeq (NodeHandle.dropHandle w id) = PinList.iterSeq w ∧
    (DynNodeHandle.dropHandle dw id).chain = dw.chain ∧
    DynPinList.iterSeq (DynNodeHandle.dropHandle dw id) = DynPinList.iterSeq dw :=
  ⟨rfl, rfl, rfl, rfl⟩

/-- C9.  Dropping a never-attached node leaves the list unchanged: for a
node created with `new_for` (typed) or `new_for_with_cast` (dyn) whose
address is not linked, running the destructor removes nothing — the
unconditional `remove` of the still-unlinked header is a no-op, and no
other entry of the list is affected. -/
theorem never_attached_drop (μ α β : Type) (w : PinListW μ α)
    (dw : DynPinListW μ β) (id : Nat) (t : α) (s : DynArr β)
    (h : id ∉ w.chain) (hd : id ∉ dw.chain) :
    (Node.drop (Node.new_for w id t) id).chain = w.chain ∧
    PinList.iterSeq (Node.drop (Node.new_for w id t) id) = PinList.iterSeq w ∧
    (DynNode.drop (DynNode.new_for_with_cast dw id s) id).chain = dw.chain ∧
    DynPinList.iterSeq (DynNode.drop (DynNode.new_for_with_cast dw id s) id)
      = DynPinList.iterSeq dw := by
  refine ⟨?_, ?_, ?_, ?_⟩
  · show w.chain.erase id = w.chain
    exact List.erase_of_not_mem h
  · show ((w.chain.erase id).filterMap _ : List α) = _
    rw [List.erase_of_not_mem h]
    apply filterMap_ext_on
    intro j hj
    have hne : j ≠ id := fun e => h (e ▸ hj)
    simp [Node.drop, Node.new_for, hne]
  · show dw.chain.erase id = dw.chain
    exact List.erase_of_not_mem hd
  · show ((dw.chain.erase id).filterMap _ : List (List β)) = _
    rw [List.erase_of_not_mem hd]
    apply filterMap_ext_on
    intro j hj
    have hne : j ≠ id := fun e => hd (e ▸ hj)
    simp [DynNode.drop, DynNode.new_for_with_cast, hne]

/-- Witness for C9: a list holding one node at address 5 is unchanged
when a never-attached node at address 0 is created and destroyed; the dyn
case runs on an empty list. -/
theorem never_attached_drop_witness :
    ((0 : Nat) ∉ (Node.attach (Node.new_for (PinList.new Unit Nat) 5 10) 5).chain) ∧
    ((0 : Nat) ∉ (DynPinList.new Unit Nat).chain) ∧
    (Node.drop (Node.new_for
        (Node.attach (Node.new_for (PinList.new Unit Nat) 5 10) 5) 0 3) 0).chain
      = (Node.attach (Node.new_for (PinList.new Unit Nat) 5 10) 5).chain ∧
    PinList.iterSeq (Node.drop (Node.new_for
        (Node.attach (Node.new_for (PinList.new Unit Nat) 5 10) 5) 0 3) 0)
      = PinList.iterSeq (Node.attach (Node.new_for (PinList.new Unit Nat) 5 10) 5) ∧
    (DynNode.drop (DynNode.new_for_with_cast (DynPinList.new Unit Nat) 0
        ⟨0, fun j => j.elim0⟩) 0).chain = (DynPinList.new Unit Nat).chain ∧
    DynPinList.iterSeq (DynNode.drop (DynNode.new_for_with_cast
        (DynPinList.new Unit Nat) 0 ⟨0, fun j => j.elim0⟩) 0)
      = DynPinList.iterSeq (DynPinList.new Unit Nat) :=
  ⟨by decide, by decide,
   (never_attached_drop Unit Nat Nat
     (Node.attach (Node.new_for (PinList.new Unit Nat) 5 10) 5)
     (DynPinList.new Unit Nat) 0 3 ⟨0, fun j => j.elim0⟩
     (by decide) (by decide)).1,
   (never_attached_drop Unit Nat Nat
     (Node.attach (Node.new_for (PinList.new Unit Nat) 5 10) 5)
     (DynPinList.new Unit Nat) 0 3 ⟨0, fun j => j.elim0⟩
     (by decide) (by decide)).2.1,
   (never_attached_drop Unit Nat Nat
     (Node.attach (Node.new_for (PinList.new Unit Nat) 5 10) 5)
     (DynPinList.new Unit Nat) 0 3 ⟨0, fun j => j.elim0⟩
     (by decide) (by decide)).2.2.1,
   (never_attached_drop Unit Nat Nat
     (Node.attach (Node.new_for (PinList.new Unit Nat) 5 10) 5)
     (DynPinList.new Unit Nat) 0 3 ⟨0, fun j => j.elim0⟩
     (by decide) (by decide)).2.2.2⟩

/-- Accounting over any serialised sequence of attach and detach
operations: the chain never holds duplicated entries, and the final chain
length balances the net attach count — length grows by one per attach and
shrinks by one per detach. -/
theorem serialized_net_attach_count (μ α : Type) (w : PinListW μ α)
    (ops : List (ListOp α)) (hwf : wfOps w ops = true) (hnd : w.chain.Nodup) :
    (runOps w ops).chain.Nodup ∧
    (runOps w ops).chain.length + countDetach ops
      = w.chain.length + countAttach ops := by
  induction ops generalizing w with
  | nil => exact ⟨hnd, rfl⟩
  | cons op ops ih =>
    cases op with
    | attach id t =>
      simp only [wfOps, Bool.and_eq_true] at hwf
      have hid : id ∉ w.chain := by simpa using hwf.1
      have hstep : (ListOp.step w (ListOp.attach id t)).chain = w.chain ++ [id] := rfl
      have hnd' : (ListOp.step w (ListOp.attach id t)).chain.Nodup := by
        rw [hstep]
        simp [List.nodup_append, hnd, hid]
      obtain ⟨h1, h2⟩ := ih (ListOp.step w (ListOp.attach id t)) hwf.2 hnd'
      refine ⟨h1, ?_⟩
      have hl : (ListOp.step w (ListOp.attach id t)).chain.length
          = w.chain.length + 1 := by simp [hstep]
      show (runOps (ListOp.step w (ListOp.attach id t)) ops).chain.length
          + countDetach ops = w.chain.length + (countAttach ops + 1)
      omega
    | detach id =>
      simp only [wfOps, Bool.and_eq_true] at hwf
      have hid : id ∈ w.chain := by simpa using hwf.1
      have hstep : (ListOp.step w (ListOp.detach id)).chain = w.chain.erase id := rfl
      have hnd' : (ListOp.step w (ListOp.detach id)).chain.Nodup := by
        rw [hstep]
        exact hnd.erase id
      obtain ⟨h1, h2⟩ := ih (ListOp.step w (ListOp.detach id)) hwf.2 hnd'
      refine ⟨h1, ?_⟩
      have hl : (ListOp.step w (ListOp.detach id)).chain.length
          = w.chain.length - 1 := by
        rw [hstep]
        exact List.length_erase_of_mem hid
      have hpos : 0 < w.chain.length := List.length_pos_of_mem hid
      show (runOps (ListOp.step w (ListOp.detach id)) ops).chain.length
          + (countDetach ops + 1) = w.chain.length + countAttach ops
      omega
